import Mathlib

/-! Shallow embedding of the poker ELO rating engine (`src/algo.py`, entry
points used by `src/main.py`) and proofs about the specified properties.

Modelling decisions, recorded once here:

* Python `dict`s are embedded as insertion-ordered association lists
  `List (String × α)`.  A Python dict has unique keys; the embedded
  operations (`lookupD`, `setD`, `addD`) act on the first occurrence of a
  key, which coincides with Python dict semantics on any list with no
  duplicate keys — and every dict the program builds has unique keys.
* Ratings and profits are real numbers (`ℝ`); Python floats are modelled
  by exact real arithmetic.
* `datetime` values are modelled by an abstract time stamp `ℕ`; the value
  of `datetime.now()` is passed in as an explicit `now` argument.
* A raised `KeyError` is modelled by a `Bool` flag returned next to the
  mutated state: `true` means the call raised, and the returned state is
  the state at the moment the exception propagated (Python mutations
  survive an exception).
* `np.mean` of an empty array is NaN in Python; the embedding gives `0/0
  = 0` there.  The value is only read inside the pair loop, which is
  empty whenever the session has fewer than two entries, so the
  difference is unobservable in the embedded functions.
-/

namespace PokerTracker

/-- Constant `INITIAL_ELO = 1500` from `src/algo.py`. -/
def INITIAL_ELO : ℝ := 1500

/-- Constant `K_BASE = 30` from `src/algo.py`. -/
def K_BASE : ℝ := 30

/-- Python `d[k]` as a total lookup: the value at the first occurrence of
key `k`, if any (`none` models a `KeyError` on read). -/
def lookupD (k : String) : List (String × α) → Option α
  | [] => none
  | (k', v) :: rest => if k' = k then some v else lookupD k rest

/-- Python `d[k] = v`: overwrite the value at the (unique) occurrence of
`k`, or append a fresh entry at the end — dict insertion order. -/
def setD (k : String) (v : α) : List (String × α) → List (String × α)
  | [] => [(k, v)]
  | (k', v') :: rest => if k' = k then (k, v) :: rest else (k', v') :: setD k v rest

/-- Python `d[k] += δ` in the case where `k` is known to be present:
add `δ` to the value at the first occurrence of `k` (no-op when the key is
absent; the engine only calls this after a successful lookup). -/
def addD (k : String) (δ : ℝ) : List (String × ℝ) → List (String × ℝ)
  | [] => []
  | (k', v) :: rest => if k' = k then (k', v + δ) :: rest else (k', v) :: addD k δ rest

/-- The key sequence of an embedded dict (Python `list(d.keys())`). -/
def keysD (m : List (String × α)) : List String := m.map Prod.fst

/-- Sum of all values of an embedded real-valued dict. -/
def sumD (m : List (String × ℝ)) : ℝ := (m.map Prod.snd).sum

/-- The mutable state of `class PokerELO`: the `elo_ratings` dict and the
`last_played` dict (`none` = Python `None`, `some d` = a date). -/
structure PokerELO where
  elo_ratings : List (String × ℝ)
  last_played : List (String × Option ℕ)

/-- Constructor `PokerELO.__init__(players)`: every player starts at `INITIAL_ELO`
with no last-played date.  The dict comprehension keeps the first
occurrence position of a duplicated name, as `setD` does. -/
noncomputable def PokerELO.init (players : List String) : PokerELO where
  elo_ratings := players.foldl (fun m p => setD p INITIAL_ELO m) []
  last_played := players.foldl (fun m p => setD p none m) []

/-- Method `PokerELO.expected_score(Ra, Rb) = 1 / (1 + 10 ** ((Rb - Ra) / 400))`,
with `**` as the real power function. -/
noncomputable def expected_score (Ra Rb : ℝ) : ℝ :=
  1 / (1 + (10 : ℝ) ^ ((Rb - Ra) / 400))

/-- The unordered pairs `(l[i], l[j])`, `i < j`, in exactly the order the
nested `for i / for j in range(i+1, …)` loops of `update_elo` visit them. -/
def pairsOf : List α → List (α × α)
  | [] => []
  | a :: rest => rest.map (fun b => (a, b)) ++ pairsOf rest

/-- The body of the pairwise loop of `update_elo` for one pair
(lines 34–49 of `src/algo.py`).  The pair `pr` carries the two players
with their session profits.  Both ratings are read first (line 41, where
an unknown player raises `KeyError`, modelled by `none`); then the two
`+=` updates of lines 48–49 are applied to the ratings dict in order. -/
noncomputable def pairStep (avg : ℝ) (pr : (String × ℝ) × (String × ℝ))
    (m : List (String × ℝ)) : Option (List (String × ℝ)) :=
  match lookupD pr.1.1 m, lookupD pr.2.1 m with
  | some Ra, some Rb =>
    let Pa := pr.1.2
    let Pb := pr.2.2
    let Sa : ℝ := if Pa > Pb then 1 else if Pa < Pb then 0 else 1/2
    let Sb : ℝ := if Pa > Pb then 0 else if Pa < Pb then 1 else 1/2
    let Ea := expected_score Ra Rb
    let Eb := 1 - Ea
    let K := K_BASE * (1 + |Pa - Pb| / avg)
    some (addD pr.2.1 (K * (Sb - Eb)) (addD pr.1.1 (K * (Sa - Ea)) m))
  | _, _ => none

/-- The pairwise loop of `update_elo` (lines 32–49 of `src/algo.py`): run
`pairStep` over the pair list in loop order.  A `KeyError` stops the loop
and reports `true`, keeping the mutations made so far. -/
noncomputable def processPairs (avg : ℝ) :
    List ((String × ℝ) × (String × ℝ)) → List (String × ℝ) →
    List (String × ℝ) × Bool
  | [], m => (m, false)
  | pr :: rest, m =>
    match pairStep avg pr m with
    | none => (m, true)
    | some m2 => processPairs avg rest m2

/-- Method `PokerELO.update_elo(session_results, session_date)`.  The session is
the ordered key/value list of the `session_results` dict.  Returns the
state after the call together with the `KeyError` flag; on an exception
the `last_played` loop (lines 52–53) never runs. -/
noncomputable def update_elo (s : PokerELO) (session : List (String × ℝ))
    (session_date : Option ℕ) (now : ℕ) : PokerELO × Bool :=
  let d := session_date.getD now
  let players := session.map Prod.fst
  let avg : ℝ := (session.map (fun p => |p.2|)).sum / session.length + 1e-6
  let res := processPairs avg (pairsOf session) s.elo_ratings
  if res.2 then ({ s with elo_ratings := res.1 }, true)
  else
    ({ elo_ratings := res.1
       last_played := players.foldl (fun m p => setD p (some d) m) s.last_played },
     false)

/-- Method `PokerELO.get_rankings()`: `sorted(items, key=rating, reverse=True)` —
a stable sort, descending on the rating component. -/
noncomputable def get_rankings (s : PokerELO) : List (String × ℝ) :=
  s.elo_ratings.mergeSort (fun a b => decide (b.2 ≤ a.2))

/-- Rating of player `p` in state `s` (defaulting to `0` when absent), a
convenient projection for statements. -/
noncomputable def getRating (s : PokerELO) (p : String) : ℝ :=
  (lookupD p s.elo_ratings).getD 0

/-- A chronological run: fold `update_elo` over a list of sessions (each
with its optional date and its value of `now`), keeping only the states as
the Python object does. -/
noncomputable def applySessions (s : PokerELO)
    (sessions : List (List (String × ℝ) × Option ℕ × ℕ)) : PokerELO :=
  sessions.foldl (fun st x => (update_elo st x.1 x.2.1 x.2.2).1) s

/-- Modelled from the spec: the snapshot-based alternative semantics of
§9 of the spec ("compute all pairwise deltas from pre-session ratings,
then apply all at once") — the design note's recommended variant, NOT the
source code's behaviour.  Every expected score is taken from the ratings
`m0` as they were before the session; the deltas still accumulate. -/
noncomputable def processPairsSnapshot (avg : ℝ) (m0 : List (String × ℝ))
    (pairs : List ((String × ℝ) × (String × ℝ))) : List (String × ℝ) :=
  pairs.foldl
    (fun m x =>
      let A := x.1.1; let Pa := x.1.2; let B := x.2.1; let Pb := x.2.2
      match lookupD A m0, lookupD B m0 with
      | some Ra, some Rb =>
        let Sa : ℝ := if Pa > Pb then 1 else if Pa < Pb then 0 else 1/2
        let Sb : ℝ := if Pa > Pb then 0 else if Pa < Pb then 1 else 1/2
        let Ea := expected_score Ra Rb
        let Eb := 1 - Ea
        let K := K_BASE * (1 + |Pa - Pb| / avg)
        addD B (K * (Sb - Eb)) (addD A (K * (Sa - Ea)) m)
      | _, _ => m)
    m0

/-- Modelled from the spec: `update_elo` under the snapshot semantics of
§9 (only the rating part; used solely to compare against the source
semantics). -/
noncomputable def update_elo_snapshot (s : PokerELO)
    (session : List (String × ℝ)) : List (String × ℝ) :=
  let avg : ℝ := (session.map (fun p => |p.2|)).sum / session.length + 1e-6
  processPairsSnapshot avg s.elo_ratings (pairsOf session)

/-! Expected-score lemmas. -/

theorem expected_score_self (r : ℝ) : expected_score r r = 1/2 := by
  unfold expected_score
  rw [sub_self, zero_div, Real.rpow_zero]
  norm_num

theorem expected_score_pos (Ra Rb : ℝ) : 0 < expected_score Ra Rb := by
  unfold expected_score
  have hx : (0:ℝ) < (10 : ℝ) ^ ((Rb - Ra) / 400) :=
    Real.rpow_pos_of_pos (by norm_num) _
  positivity

theorem expected_score_lt_one (Ra Rb : ℝ) : expected_score Ra Rb < 1 := by
  unfold expected_score
  have hx : (0:ℝ) < (10 : ℝ) ^ ((Rb - Ra) / 400) :=
    Real.rpow_pos_of_pos (by norm_num) _
  rw [div_lt_one (by linarith)]
  linarith

theorem half_lt_expected_score (Ra Rb : ℝ) (h : Rb < Ra) :
    1/2 < expected_score Ra Rb := by
  unfold expected_score
  have hx : (0:ℝ) < (10 : ℝ) ^ ((Rb - Ra) / 400) :=
    Real.rpow_pos_of_pos (by norm_num) _
  have hx1 : (10 : ℝ) ^ ((Rb - Ra) / 400) < 1 :=
    Real.rpow_lt_one_of_one_lt_of_neg (by norm_num)
      (div_neg_of_neg_of_pos (sub_neg.2 h) (by norm_num))
  rw [show (1:ℝ)/2 = 1/2 from rfl]
  have h2 : (0:ℝ) < 1 + (10 : ℝ) ^ ((Rb - Ra) / 400) := by linarith
  rw [div_lt_div_iff₀ (by norm_num) h2]
  linarith

/-! Dictionary lemmas. -/

theorem keysD_addD (k : String) (δ : ℝ) (m : List (String × ℝ)) :
    keysD (addD k δ m) = keysD m := by
  induction m with
  | nil => rfl
  | cons hd t ih =>
    obtain ⟨k', v⟩ := hd
    by_cases h : k' = k
    · simp [addD, h, keysD]
    · simp only [addD, if_neg h, keysD, List.map_cons] at ih ⊢
      rw [ih]

theorem lookupD_addD (p k : String) (δ : ℝ) (m : List (String × ℝ)) :
    lookupD p (addD k δ m) =
      if k = p then Option.map (· + δ) (lookupD p m) else lookupD p m := by
  induction m with
  | nil => simp [addD, lookupD]
  | cons hd t ih =>
    obtain ⟨k', v⟩ := hd
    by_cases h1 : k' = k <;> by_cases h2 : k' = p
    · subst h1; subst h2
      simp [addD, lookupD]
    · subst h1
      simp [addD, lookupD, h2]
    · subst h2
      have hk : k ≠ k' := fun h => h1 h.symm
      simp [addD, lookupD, h1, hk]
    · simp [addD, lookupD, h1, h2, ih]

theorem lookupD_addD_ne (p k : String) (δ : ℝ) (m : List (String × ℝ))
    (h : k ≠ p) : lookupD p (addD k δ m) = lookupD p m := by
  rw [lookupD_addD, if_neg h]

theorem lookupD_addD_none (p k : String) (δ : ℝ) (m : List (String × ℝ)) :
    lookupD p (addD k δ m) = none ↔ lookupD p m = none := by
  rw [lookupD_addD]
  split_ifs <;> simp

theorem sumD_addD (k : String) (δ : ℝ) (m : List (String × ℝ)) (v : ℝ)
    (h : lookupD k m = some v) : sumD (addD k δ m) = sumD m + δ := by
  induction m with
  | nil => exact absurd h (by simp [lookupD])
  | cons hd t ih =>
    obtain ⟨k', w⟩ := hd
    by_cases h1 : k' = k
    · simp only [addD, if_pos h1, sumD, List.map_cons, List.sum_cons]
      ring
    · simp only [lookupD, if_neg h1] at h
      simp only [addD, if_neg h1, sumD, List.map_cons, List.sum_cons] at ih ⊢
      rw [ih h]
      ring

theorem lookupD_isSome_addD (p k : String) (δ : ℝ) (m : List (String × ℝ)) :
    (lookupD p (addD k δ m)).isSome = (lookupD p m).isSome := by
  rw [lookupD_addD]
  split_ifs <;> simp

/-! Pair-step and pair-loop lemmas. -/

theorem pairStep_none_iff (avg : ℝ) (pr : (String × ℝ) × (String × ℝ))
    (m : List (String × ℝ)) :
    pairStep avg pr m = none ↔
      lookupD pr.1.1 m = none ∨ lookupD pr.2.1 m = none := by
  unfold pairStep
  cases hA : lookupD pr.1.1 m <;> cases hB : lookupD pr.2.1 m <;> simp

/-- Rewriting form of `pairStep` when both lookups succeed. -/
theorem pairStep_some (avg : ℝ) (pr : (String × ℝ) × (String × ℝ))
    (m : List (String × ℝ)) (Ra Rb : ℝ)
    (hA : lookupD pr.1.1 m = some Ra) (hB : lookupD pr.2.1 m = some Rb) :
    pairStep avg pr m =
      some (addD pr.2.1
        (K_BASE * (1 + |pr.1.2 - pr.2.2| / avg) *
          ((if pr.1.2 > pr.2.2 then (0 : ℝ) else if pr.1.2 < pr.2.2 then 1 else 1/2)
            - (1 - expected_score Ra Rb)))
        (addD pr.1.1
          (K_BASE * (1 + |pr.1.2 - pr.2.2| / avg) *
            ((if pr.1.2 > pr.2.2 then (1 : ℝ) else if pr.1.2 < pr.2.2 then 0 else 1/2)
              - expected_score Ra Rb)) m)) := by
  unfold pairStep
  rw [hA, hB]

theorem pairStep_keysD (avg : ℝ) (pr : (String × ℝ) × (String × ℝ))
    (m m2 : List (String × ℝ)) (h : pairStep avg pr m = some m2) :
    keysD m2 = keysD m := by
  cases hA : lookupD pr.1.1 m with
  | none =>
    rw [(pairStep_none_iff avg pr m).2 (Or.inl hA)] at h
    cases h
  | some Ra =>
    cases hB : lookupD pr.2.1 m with
    | none =>
      rw [(pairStep_none_iff avg pr m).2 (Or.inr hB)] at h
      cases h
    | some Rb =>
      rw [pairStep_some avg pr m Ra Rb hA hB] at h
      injection h with h
      rw [← h, keysD_addD, keysD_addD]

theorem pairStep_sumD (avg : ℝ) (pr : (String × ℝ) × (String × ℝ))
    (m m2 : List (String × ℝ)) (h : pairStep avg pr m = some m2) :
    sumD m2 = sumD m := by
  cases hA : lookupD pr.1.1 m with
  | none =>
    rw [(pairStep_none_iff avg pr m).2 (Or.inl hA)] at h
    cases h
  | some Ra =>
    cases hB : lookupD pr.2.1 m with
    | none =>
      rw [(pairStep_none_iff avg pr m).2 (Or.inr hB)] at h
      cases h
    | some Rb =>
      rw [pairStep_some avg pr m Ra Rb hA hB] at h
      injection h with h
      subst h
      have hw : ∃ w, lookupD pr.2.1
          (addD pr.1.1
            (K_BASE * (1 + |pr.1.2 - pr.2.2| / avg) *
              ((if pr.1.2 > pr.2.2 then (1 : ℝ) else if pr.1.2 < pr.2.2 then 0 else 1/2)
                - expected_score Ra Rb)) m) = some w := by
        rw [lookupD_addD]
        split_ifs <;> simp [hB]
      obtain ⟨w, hw⟩ := hw
      rw [sumD_addD _ _ _ w hw, sumD_addD _ _ _ Ra hA]
      split_ifs <;> ring

theorem processPairs_nil (avg : ℝ) (m : List (String × ℝ)) :
    processPairs avg [] m = (m, false) := rfl

theorem processPairs_cons_some (avg : ℝ) (pr : (String × ℝ) × (String × ℝ))
    (rest : List ((String × ℝ) × (String × ℝ))) (m m2 : List (String × ℝ))
    (h : pairStep avg pr m = some m2) :
    processPairs avg (pr :: rest) m = processPairs avg rest m2 := by
  rw [processPairs, h]

theorem processPairs_cons_none (avg : ℝ) (pr : (String × ℝ) × (String × ℝ))
    (rest : List ((String × ℝ) × (String × ℝ))) (m : List (String × ℝ))
    (h : pairStep avg pr m = none) :
    processPairs avg (pr :: rest) m = (m, true) := by
  rw [processPairs, h]

theorem processPairs_keysD (avg : ℝ)
    (pairs : List ((String × ℝ) × (String × ℝ))) (m : List (String × ℝ)) :
    keysD (processPairs avg pairs m).1 = keysD m := by
  induction pairs generalizing m with
  | nil => rfl
  | cons pr rest ih =>
    rw [processPairs]
    cases h : pairStep avg pr m with
    | none => rfl
    | some m2 => rw [ih m2, pairStep_keysD avg pr m m2 h]

theorem processPairs_sumD (avg : ℝ)
    (pairs : List ((String × ℝ) × (String × ℝ))) (m : List (String × ℝ)) :
    sumD (processPairs avg pairs m).1 = sumD m := by
  induction pairs generalizing m with
  | nil => rfl
  | cons pr rest ih =>
    rw [processPairs]
    cases h : pairStep avg pr m with
    | none => rfl
    | some m2 => rw [ih m2, pairStep_sumD avg pr m m2 h]

/-! Lemmas at the level of `update_elo`. -/

/-- The ratings component of the state returned by `update_elo` is the
output of the pair loop, whether or not a `KeyError` was raised. -/
theorem update_elo_ratings (s : PokerELO) (sess : List (String × ℝ))
    (d : Option ℕ) (now : ℕ) :
    (update_elo s sess d now).1.elo_ratings =
      (processPairs ((sess.map (fun p => |p.2|)).sum / sess.length + 1e-6)
        (pairsOf sess) s.elo_ratings).1 := by
  unfold update_elo
  dsimp only
  split <;> rfl

/-- The `KeyError` flag returned by `update_elo` is the pair loop's flag. -/
theorem update_elo_flag (s : PokerELO) (sess : List (String × ℝ))
    (d : Option ℕ) (now : ℕ) :
    (update_elo s sess d now).2 =
      (processPairs ((sess.map (fun p => |p.2|)).sum / sess.length + 1e-6)
        (pairsOf sess) s.elo_ratings).2 := by
  unfold update_elo
  dsimp only
  split
  · next h => exact h.symm
  · next h => exact ((Bool.not_eq_true _).mp h).symm

/-- A session update never changes the key sequence of the ratings dict. -/
theorem keysD_update_elo (s : PokerELO) (sess : List (String × ℝ))
    (d : Option ℕ) (now : ℕ) :
    keysD (update_elo s sess d now).1.elo_ratings = keysD s.elo_ratings := by
  rw [update_elo_ratings, processPairs_keysD]

/-- A session update never changes the sum of all ratings: each pair adds
`K * (Sa - Ea)` and `K * (Sb - Eb)` with `Sa + Sb = 1` and `Eb = 1 - Ea`,
which cancel exactly. -/
theorem sumD_update_elo (s : PokerELO) (sess : List (String × ℝ))
    (d : Option ℕ) (now : ℕ) :
    sumD (update_elo s sess d now).1.elo_ratings = sumD s.elo_ratings := by
  rw [update_elo_ratings, processPairs_sumD]

theorem pairsOf_short (l : List α) (h : l.length < 2) : pairsOf l = [] := by
  match l with
  | [] => rfl
  | [a] => rfl
  | a :: b :: t => simp at h; omega

/-- With fewer than two session entries the pair loop body never runs. -/
theorem update_elo_ratings_short (s : PokerELO) (sess : List (String × ℝ))
    (d : Option ℕ) (now : ℕ) (h : sess.length < 2) :
    (update_elo s sess d now).1.elo_ratings = s.elo_ratings := by
  rw [update_elo_ratings, pairsOf_short _ h]
  rfl

/-! Further dictionary and pair-list lemmas. -/

theorem addD_zero (k : String) (m : List (String × ℝ)) : addD k 0 m = m := by
  induction m with
  | nil => rfl
  | cons hd t ih =>
    obtain ⟨k', v⟩ := hd
    by_cases h : k' = k <;> simp [addD, h, ih]

theorem lookupD_eq_none_iff (p : String) (m : List (String × α)) :
    lookupD p m = none ↔ p ∉ keysD m := by
  induction m with
  | nil => simp [lookupD, keysD]
  | cons hd t ih =>
    obtain ⟨k', v⟩ := hd
    have hk : keysD ((k', v) :: t) = k' :: keysD t := rfl
    rw [hk, List.mem_cons]
    by_cases h : k' = p
    · subst h
      simp [lookupD]
    · rw [lookupD, if_neg h, ih]
      have h' : ¬ p = k' := fun hh => h hh.symm
      simp [h']

theorem mem_pairsOf {x : α × α} {l : List α} (h : x ∈ pairsOf l) :
    x.1 ∈ l ∧ x.2 ∈ l := by
  induction l with
  | nil => cases h
  | cons a rest ih =>
    rw [pairsOf, List.mem_append] at h
    rcases h with h | h
    · obtain ⟨b, hb, rfl⟩ := List.mem_map.1 h
      exact ⟨List.mem_cons_self a rest, List.mem_cons_of_mem a hb⟩
    · obtain ⟨h1, h2⟩ := ih h
      exact ⟨List.mem_cons_of_mem a h1, List.mem_cons_of_mem a h2⟩

/-- In a list with at least two elements, every element occurs as a
component of at least one loop pair. -/
theorem pairsOf_hits {x : α} {l : List α} (hx : x ∈ l) (hlen : 2 ≤ l.length) :
    ∃ pr ∈ pairsOf l, pr.1 = x ∨ pr.2 = x := by
  cases l with
  | nil => cases hx
  | cons a rest =>
    have hre : rest ≠ [] := by
      intro h
      subst h
      simp at hlen
    obtain ⟨b, hb⟩ := List.exists_mem_of_ne_nil rest hre
    rcases List.mem_cons.1 hx with rfl | hxr
    · refine ⟨(x, b), ?_, Or.inl rfl⟩
      rw [pairsOf, List.mem_append]
      exact Or.inl (List.mem_map.2 ⟨b, hb, rfl⟩)
    · refine ⟨(a, x), ?_, Or.inr rfl⟩
      rw [pairsOf, List.mem_append]
      exact Or.inl (List.mem_map.2 ⟨x, hxr, rfl⟩)

/-- A push pair (equal profits, equal current ratings) leaves the ratings
dict unchanged: `Sa = Sb = Ea = Eb = 1/2`, so both deltas are zero. -/
theorem pairStep_push (avg : ℝ) (pr : (String × ℝ) × (String × ℝ))
    (m : List (String × ℝ)) (r : ℝ)
    (hA : lookupD pr.1.1 m = some r) (hB : lookupD pr.2.1 m = some r)
    (hp : pr.1.2 = pr.2.2) :
    pairStep avg pr m = some m := by
  rw [pairStep_some avg pr m r r hA hB, expected_score_self, hp]
  rw [if_neg (lt_irrefl pr.2.2), if_neg (lt_irrefl pr.2.2),
    if_neg (lt_irrefl pr.2.2), if_neg (lt_irrefl pr.2.2)]
  rw [show (1:ℝ)/2 - (1 - 1/2) = 0 by norm_num,
    show (1:ℝ)/2 - 1/2 = 0 by norm_num, mul_zero, addD_zero, addD_zero]

/-- Running the pair loop over pairs that are all pushes at a common
rating `r` changes nothing and raises nothing. -/
theorem processPairs_push (avg : ℝ)
    (pairs : List ((String × ℝ) × (String × ℝ))) (m : List (String × ℝ)) (r : ℝ)
    (hmem : ∀ pr ∈ pairs,
      lookupD pr.1.1 m = some r ∧ lookupD pr.2.1 m = some r ∧ pr.1.2 = pr.2.2) :
    processPairs avg pairs m = (m, false) := by
  induction pairs with
  | nil => rfl
  | cons pr rest ih =>
    obtain ⟨hA, hB, hp⟩ := hmem pr (List.mem_cons_self pr rest)
    rw [processPairs_cons_some _ _ _ _ _ (pairStep_push avg pr m r hA hB hp)]
    exact ih fun q hq => hmem q (List.mem_cons_of_mem pr hq)

/-- If some pair in the list mentions a player missing from the ratings
dict, the pair loop raises `KeyError`. -/
theorem processPairs_throws (avg : ℝ)
    (pairs : List ((String × ℝ) × (String × ℝ))) (m : List (String × ℝ))
    (h : ∃ pr ∈ pairs, lookupD pr.1.1 m = none ∨ lookupD pr.2.1 m = none) :
    (processPairs avg pairs m).2 = true := by
  induction pairs generalizing m with
  | nil =>
    obtain ⟨pr, hpr, -⟩ := h
    cases hpr
  | cons pr0 rest ih =>
    obtain ⟨pr, hpr, hlk⟩ := h
    cases hs : pairStep avg pr0 m with
    | none => rw [processPairs_cons_none _ _ _ _ hs]
    | some m2 =>
      rw [processPairs_cons_some _ _ _ _ _ hs]
      rcases List.mem_cons.1 hpr with rfl | hrest
      · have hns : pairStep avg pr m ≠ none := by
          rw [hs]
          simp
        rw [Ne, pairStep_none_iff] at hns
        exact absurd hlk hns
      · apply ih m2
        refine ⟨pr, hrest, ?_⟩
        have hk : keysD m2 = keysD m := pairStep_keysD avg pr0 m m2 hs
        rcases hlk with hlk | hlk
        · exact Or.inl (by rw [lookupD_eq_none_iff, hk, ← lookupD_eq_none_iff]; exact hlk)
        · exact Or.inr (by rw [lookupD_eq_none_iff, hk, ← lookupD_eq_none_iff]; exact hlk)

/-- A session of two or more entries that mentions a player unknown to the
ratings dict makes `update_elo` raise `KeyError`. -/
theorem update_elo_throws (s : PokerELO) (sess : List (String × ℝ))
    (d : Option ℕ) (now : ℕ) (p : String) (v : ℝ)
    (hlen : 2 ≤ sess.length) (hmem : (p, v) ∈ sess)
    (hunk : lookupD p s.elo_ratings = none) :
    (update_elo s sess d now).2 = true := by
  rw [update_elo_flag]
  apply processPairs_throws
  obtain ⟨pr, hpr, hc⟩ := pairsOf_hits hmem hlen
  refine ⟨pr, hpr, ?_⟩
  rcases hc with h | h
  · exact Or.inl (by rw [h]; exact hunk)
  · exact Or.inr (by rw [h]; exact hunk)

/-! Lemmas about the key sequence created by the constructor. -/

theorem keysD_setD_notMem {α : Type} (k : String) (v : α)
    (m : List (String × α)) (h : k ∉ keysD m) :
    keysD (setD k v m) = keysD m ++ [k] := by
  induction m with
  | nil => rfl
  | cons hd t ih =>
    obtain ⟨k', w⟩ := hd
    simp only [keysD, List.map_cons, List.mem_cons] at h
    push_neg at h
    rw [setD, if_neg (fun hh => h.1 hh.symm)]
    simp only [keysD, List.map_cons, List.cons_append, List.cons.injEq, true_and]
    exact ih h.2

theorem keysD_foldl_setD {α : Type} (v : α) (roster : List String)
    (m0 : List (String × α)) (hd : roster.Nodup)
    (hm : ∀ p ∈ roster, p ∉ keysD m0) :
    keysD (roster.foldl (fun m p => setD p v m) m0) = keysD m0 ++ roster := by
  induction roster generalizing m0 with
  | nil => simp
  | cons p rest ih =>
    simp only [List.foldl_cons]
    have hp : p ∉ keysD m0 := hm p (List.mem_cons_self p rest)
    rw [ih (setD p v m0) (List.nodup_cons.1 hd).2 ?_, keysD_setD_notMem p v m0 hp]
    · simp
    · intro q hq
      rw [keysD_setD_notMem p v m0 hp, List.mem_append, List.mem_singleton]
      push_neg
      exact ⟨hm q (List.mem_cons_of_mem p hq),
        fun h => (List.nodup_cons.1 hd).1 (h ▸ hq)⟩

/-- For a duplicate-free roster the constructor creates exactly one rating
entry per player, in roster order. -/
theorem keysD_init (roster : List String) (h : roster.Nodup) :
    keysD (PokerELO.init roster).elo_ratings = roster := by
  show keysD (roster.foldl (fun m p => setD p INITIAL_ELO m) []) = roster
  rw [keysD_foldl_setD INITIAL_ELO roster [] h (by intro p hp; simp [keysD])]
  rfl

/-! Exact evaluations on the concrete inputs used by the spec scenario and
the counterexamples.  The rationals are what the engine computes: e.g.
`15225001515 / 10000001 = 1500 + (30 * (1 + 5 / (10 + 1e-6))) / 2` is A's
rating right after the first pair `(A, B)` of the scenario session. -/

theorem scenario_lookup_A :
    lookupD "A" ((update_elo (PokerELO.init ["A", "B", "C"])
        [("A", 10), ("B", 5), ("C", -15)] none 0).1.elo_ratings) =
      some (15225001515 / 10000001 + 1050000030 / 10000001 *
        (1 - expected_score (15225001515 / 10000001) 1500)) := by
  rw [update_elo_ratings]
  norm_num +decide [processPairs, pairStep, pairsOf, lookupD, addD, PokerELO.init, setD,
    expected_score_self, K_BASE, INITIAL_ELO]

theorem scenario_snapshot_A :
    lookupD "A" (update_elo_snapshot (PokerELO.init ["A", "B", "C"])
        [("A", 10), ("B", 5), ("C", -15)]) =
      some (15750001530 / 10000001) := by
  unfold update_elo_snapshot processPairsSnapshot
  norm_num +decide [pairsOf, lookupD, addD, PokerELO.init, setD, expected_score_self,
    K_BASE, INITIAL_ELO]

theorem push_unequal_lookup_A :
    lookupD "A" ((update_elo ⟨[("A", 1600), ("B", 1500)], [("A", none), ("B", none)]⟩
        [("A", 0), ("B", 0)] none 0).1.elo_ratings) =
      some (1600 + 30 * (1/2 - expected_score 1600 1500)) := by
  rw [update_elo_ratings]
  norm_num +decide [processPairs, pairStep, pairsOf, lookupD, addD, expected_score_self, K_BASE]

theorem throw_scenario_flag :
    (update_elo (PokerELO.init ["A", "B"]) [("A", 10), ("B", 5), ("X", 0)] none 0).2 = true := by
  rw [update_elo_flag]
  norm_num +decide [processPairs, pairStep, pairsOf, lookupD, addD, PokerELO.init, setD,
    expected_score_self, K_BASE, INITIAL_ELO]

theorem throw_scenario_lookup_A :
    lookupD "A" ((update_elo (PokerELO.init ["A", "B"])
        [("A", 10), ("B", 5), ("X", 0)] none 0).1.elo_ratings) =
      some (7650001515 / 5000001) := by
  rw [update_elo_ratings]
  norm_num +decide [processPairs, pairStep, pairsOf, lookupD, addD, PokerELO.init, setD,
    expected_score_self, K_BASE, INITIAL_ELO]

theorem sumD_init_ABC : sumD (PokerELO.init ["A", "B", "C"]).elo_ratings = 4500 := by
  norm_num +decide [PokerELO.init, setD, sumD, INITIAL_ELO]

/-! Two-player sessions at equal prior ratings: the winner gains `K/2`,
the loser loses `K/2`, whichever dict order the session uses. -/

theorem two_player_first_wins (s : PokerELO) (X Y : String) (px py r : ℝ)
    (d : Option ℕ) (now : ℕ) (hXY : X ≠ Y) (hp : py < px)
    (hX : lookupD X s.elo_ratings = some r) (hY : lookupD Y s.elo_ratings = some r) :
    r < getRating (update_elo s [(X, px), (Y, py)] d now).1 X ∧
    getRating (update_elo s [(X, px), (Y, py)] d now).1 Y < r := by
  have havg : (0:ℝ) < (List.map (fun p => |p.2|) [(X, px), (Y, py)]).sum /
      ([(X, px), (Y, py)].length : ℝ) + 1e-6 := by
    simp only [List.map_cons, List.map_nil, List.sum_cons, List.sum_nil,
      List.length_cons, List.length_nil]
    positivity
  have hK : (0:ℝ) < K_BASE * (1 + |px - py| /
      ((List.map (fun p => |p.2|) [(X, px), (Y, py)]).sum /
        ([(X, px), (Y, py)].length : ℝ) + 1e-6)) := by
    have h1 : (0:ℝ) ≤ |px - py| /
        ((List.map (fun p => |p.2|) [(X, px), (Y, py)]).sum /
          ([(X, px), (Y, py)].length : ℝ) + 1e-6) :=
      div_nonneg (abs_nonneg _) havg.le
    unfold K_BASE
    nlinarith
  unfold getRating
  rw [update_elo_ratings]
  rw [show pairsOf [(X, px), (Y, py)] = [((X, px), (Y, py))] from rfl]
  rw [processPairs_cons_some _ _ _ _ _ (pairStep_some _ ((X, px), (Y, py)) _ r r hX hY)]
  rw [processPairs_nil]
  dsimp only
  rw [if_pos hp, expected_score_self]
  constructor
  · rw [lookupD_addD_ne X Y _ _ (Ne.symm hXY), lookupD_addD]
    rw [if_pos rfl, hX]
    simp only [Option.map_some', Option.getD_some]
    rw [if_pos hp]
    nlinarith
  · rw [lookupD_addD, if_pos rfl, lookupD_addD_ne Y X _ _ hXY, hY]
    simp only [Option.map_some', Option.getD_some]
    nlinarith

theorem two_player_second_wins (s : PokerELO) (X Y : String) (px py r : ℝ)
    (d : Option ℕ) (now : ℕ) (hXY : X ≠ Y) (hp : px < py)
    (hX : lookupD X s.elo_ratings = some r) (hY : lookupD Y s.elo_ratings = some r) :
    getRating (update_elo s [(X, px), (Y, py)] d now).1 X < r ∧
    r < getRating (update_elo s [(X, px), (Y, py)] d now).1 Y := by
  have havg : (0:ℝ) < (List.map (fun p => |p.2|) [(X, px), (Y, py)]).sum /
      ([(X, px), (Y, py)].length : ℝ) + 1e-6 := by
    simp only [List.map_cons, List.map_nil, List.sum_cons, List.sum_nil,
      List.length_cons, List.length_nil]
    positivity
  have hK : (0:ℝ) < K_BASE * (1 + |px - py| /
      ((List.map (fun p => |p.2|) [(X, px), (Y, py)]).sum /
        ([(X, px), (Y, py)].length : ℝ) + 1e-6)) := by
    have h1 : (0:ℝ) ≤ |px - py| /
        ((List.map (fun p => |p.2|) [(X, px), (Y, py)]).sum /
          ([(X, px), (Y, py)].length : ℝ) + 1e-6) :=
      div_nonneg (abs_nonneg _) havg.le
    unfold K_BASE
    nlinarith
  unfold getRating
  rw [update_elo_ratings]
  rw [show pairsOf [(X, px), (Y, py)] = [((X, px), (Y, py))] from rfl]
  rw [processPairs_cons_some _ _ _ _ _ (pairStep_some _ ((X, px), (Y, py)) _ r r hX hY)]
  rw [processPairs_nil]
  dsimp only
  rw [if_neg (lt_asymm hp), if_pos hp, expected_score_self]
  constructor
  · rw [lookupD_addD_ne X Y _ _ (Ne.symm hXY), lookupD_addD]
    rw [if_pos rfl, hX]
    simp only [Option.map_some', Option.getD_some]
    rw [if_neg (lt_asymm hp), if_pos hp]
    nlinarith
  · rw [lookupD_addD, if_pos rfl, lookupD_addD_ne Y X _ _ hXY, hY]
    simp only [Option.map_some', Option.getD_some]
    nlinarith

/-! Settled claims. -/

/-- Claim C1, counterexample.  The claim predicts final ratings exactly
A = 1575, B = 1522.5, C = 1402.5 for the scenario session
`{A: 10, B: 5, C: -15}` on three fresh 1500 players.  It is false: the
claim's per-pair arithmetic ignores both the `1e-6` term inside
`avgAbsProfit` and the fact that the pair `(A, C)` reads A's
already-updated rating, so A's true final rating is strictly below
1575. -/
theorem claim_C1_counterexample :
    ¬ (getRating (update_elo (PokerELO.init ["A", "B", "C"])
          [("A", 10), ("B", 5), ("C", -15)] none 0).1 "A" = 1575 ∧
       getRating (update_elo (PokerELO.init ["A", "B", "C"])
          [("A", 10), ("B", 5), ("C", -15)] none 0).1 "B" = 1522.5 ∧
       getRating (update_elo (PokerELO.init ["A", "B", "C"])
          [("A", 10), ("B", 5), ("C", -15)] none 0).1 "C" = 1402.5) := by
  rintro ⟨hA, -, -⟩
  have hval : getRating (update_elo (PokerELO.init ["A", "B", "C"])
      [("A", 10), ("B", 5), ("C", -15)] none 0).1 "A" =
      15225001515 / 10000001 + 1050000030 / 10000001 *
        (1 - expected_score (15225001515 / 10000001) 1500) := by
    unfold getRating
    rw [scenario_lookup_A]
    rfl
  rw [hval] at hA
  have hE : 1/2 < expected_score (15225001515 / 10000001) 1500 :=
    half_lt_expected_score _ _ (by norm_num)
  linarith

/-- Claim C1, amended.  On the scenario session `{A: 10, B: 5, C: -15}`
applied to three fresh 1500 players, A's final rating lies strictly
between 1500 and 1575 (not exactly 1575: the deltas deviate from
+22.5/+52.5 because `avgAbsProfit` includes the `1e-6` term and the pair
`(A, C)` reads A's already-updated rating), and the total rating mass of
the session stays exactly 4500. -/
theorem claim_C1_amended :
    1500 < getRating (update_elo (PokerELO.init ["A", "B", "C"])
        [("A", 10), ("B", 5), ("C", -15)] none 0).1 "A" ∧
    getRating (update_elo (PokerELO.init ["A", "B", "C"])
        [("A", 10), ("B", 5), ("C", -15)] none 0).1 "A" < 1575 ∧
    sumD (update_elo (PokerELO.init ["A", "B", "C"])
        [("A", 10), ("B", 5), ("C", -15)] none 0).1.elo_ratings = 4500 := by
  have hval : getRating (update_elo (PokerELO.init ["A", "B", "C"])
      [("A", 10), ("B", 5), ("C", -15)] none 0).1 "A" =
      15225001515 / 10000001 + 1050000030 / 10000001 *
        (1 - expected_score (15225001515 / 10000001) 1500) := by
    unfold getRating
    rw [scenario_lookup_A]
    rfl
  have hE : 1/2 < expected_score (15225001515 / 10000001) 1500 :=
    half_lt_expected_score _ _ (by norm_num)
  have hE1 : expected_score (15225001515 / 10000001) 1500 < 1 :=
    expected_score_lt_one _ _
  refine ⟨?_, ?_, ?_⟩
  · rw [hval]
    linarith
  · rw [hval]
    linarith
  · rw [sumD_update_elo, sumD_init_ABC]

/-- Claim C2, counterexample (negation of the claim).  The claim asserts
some session of two or more participants changes the total rating mass.
In exact arithmetic no session does: each pair contributes
`K * (Sa - Ea) + K * (Sb - Eb) = K * ((Sa + Sb) - 1) = 0`. -/
theorem claim_C2_counterexample :
    ¬ ∃ (s : PokerELO) (sess : List (String × ℝ)) (d : Option ℕ) (now : ℕ),
        2 ≤ sess.length ∧
        sumD (update_elo s sess d now).1.elo_ratings ≠ sumD s.elo_ratings := by
  rintro ⟨s, sess, d, now, -, hne⟩
  exact hne (sumD_update_elo s sess d now)

/-- Claim C2, amended.  The sum of all rating deltas in a single session
is always exactly zero (in the exact real arithmetic of the embedding):
conservation does hold despite the per-pair K factor, because within every
pair `Sa + Sb = 1` and `Eb = 1 - Ea`, so the two deltas cancel. -/
theorem claim_C2_amended (s : PokerELO) (sess : List (String × ℝ))
    (d : Option ℕ) (now : ℕ) :
    sumD (update_elo s sess d now).1.elo_ratings = sumD s.elo_ratings :=
  sumD_update_elo s sess d now

/-- Claim C3, counterexample.  A full-table push (`{A: 0, B: 0}`) does NOT
leave ratings unchanged when the prior ratings differ: with A at 1600 and
B at 1500, `Ea > 1/2` while `Sa = 1/2`, so A loses rating.  The claim's
"regardless of the participants' ratings" is false. -/
theorem claim_C3_counterexample :
    (update_elo ⟨[("A", 1600), ("B", 1500)], [("A", none), ("B", none)]⟩
        [("A", 0), ("B", 0)] none 0).1.elo_ratings ≠
      [("A", 1600), ("B", 1500)] := by
  intro h
  have hc := congrArg (lookupD "A") h
  rw [push_unequal_lookup_A] at hc
  rw [show lookupD "A" [("A", (1600:ℝ)), ("B", 1500)] = some 1600 from by
    norm_num +decide [lookupD]] at hc
  have hv : (1600:ℝ) + 30 * (1/2 - expected_score 1600 1500) = 1600 :=
    Option.some.inj hc
  have hE : 1/2 < expected_score 1600 1500 :=
    half_lt_expected_score _ _ (by norm_num)
  linarith

/-- Claim C3, amended.  A session in which every participant has the same
net profit leaves every rating unchanged PROVIDED all participants also
have the same rating before the session (then every pair has
`Sa = Sb = Ea = Eb = 1/2` and both deltas vanish). -/
theorem claim_C3_amended (s : PokerELO) (sess : List (String × ℝ))
    (d : Option ℕ) (now : ℕ) (r c : ℝ)
    (hprofit : ∀ x ∈ sess, x.2 = c)
    (hrating : ∀ x ∈ sess, lookupD x.1 s.elo_ratings = some r) :
    (update_elo s sess d now).1.elo_ratings = s.elo_ratings := by
  rw [update_elo_ratings]
  have hmem : ∀ pr ∈ pairsOf sess,
      lookupD pr.1.1 s.elo_ratings = some r ∧
      lookupD pr.2.1 s.elo_ratings = some r ∧ pr.1.2 = pr.2.2 := by
    intro pr hpr
    obtain ⟨h1, h2⟩ := mem_pairsOf hpr
    exact ⟨hrating _ h1, hrating _ h2, by rw [hprofit _ h1, hprofit _ h2]⟩
  rw [processPairs_push _ _ _ r hmem]

/-- Claim C3, witness: the amended theorem applied to the concrete push
session `{A: 3, B: 3}` on two fresh 1500 players. -/
theorem claim_C3_witness :
    (update_elo (PokerELO.init ["A", "B"]) [("A", 3), ("B", 3)] none 0).1.elo_ratings =
      (PokerELO.init ["A", "B"]).elo_ratings :=
  claim_C3_amended (PokerELO.init ["A", "B"]) [("A", 3), ("B", 3)] none 0 1500 3
    (by
      intro x hx
      rcases List.mem_cons.1 hx with rfl | hx
      · rfl
      · rcases List.mem_cons.1 hx with rfl | hx
        · rfl
        · cases hx)
    (by
      intro x hx
      rcases List.mem_cons.1 hx with rfl | hx
      · norm_num +decide [PokerELO.init, setD, lookupD, INITIAL_ELO]
      · rcases List.mem_cons.1 hx with rfl | hx
        · norm_num +decide [PokerELO.init, setD, lookupD, INITIAL_ELO]
        · cases hx)

/-- Claim C4, counterexample.  A singleton session is NOT a complete
no-op: `update_elo` still runs the `last_played` loop, so the lone
participant's last-played date changes (here from `None` to day 7). -/
theorem claim_C4_counterexample :
    (update_elo (PokerELO.init ["A", "B"]) [("A", 5)] (some 7) 0).1.last_played ≠
      (PokerELO.init ["A", "B"]).last_played := by
  decide

/-- Claim C4, amended.  An empty session record is a complete no-op of the
whole state and does not throw; a singleton record `{p: v}` leaves the
ratings unchanged and does not throw, but it DOES set `last_played[p]` to
the session date (defaulting to now). -/
theorem claim_C4_amended :
    (∀ (s : PokerELO) (d : Option ℕ) (now : ℕ), update_elo s [] d now = (s, false)) ∧
    (∀ (s : PokerELO) (p : String) (v : ℝ) (d : Option ℕ) (now : ℕ),
        update_elo s [(p, v)] d now =
          ({ elo_ratings := s.elo_ratings
             last_played := setD p (some (d.getD now)) s.last_played }, false)) :=
  ⟨fun _ _ _ => rfl, fun _ _ _ _ _ => rfl⟩

/-- Claim C5, confirmed.  A session record with fewer than two (numeric)
participants leaves the participant-to-rating mapping unchanged: the pair
loop body never runs. -/
theorem claim_C5 (s : PokerELO) (sess : List (String × ℝ))
    (d : Option ℕ) (now : ℕ) (h : sess.length < 2) :
    (update_elo s sess d now).1.elo_ratings = s.elo_ratings :=
  update_elo_ratings_short s sess d now h

/-- Claim C5, witness: the theorem applied to the singleton session
`{A: 5}` on two fresh players. -/
theorem claim_C5_witness :
    (update_elo (PokerELO.init ["A", "B"]) [("A", 5)] none 0).1.elo_ratings =
      (PokerELO.init ["A", "B"]).elo_ratings :=
  claim_C5 (PokerELO.init ["A", "B"]) [("A", 5)] none 0 (by norm_num)

/-- Claim C6, confirmed.  Within one `update_elo` call the deltas of
earlier pairs are applied to the shared ratings dict before later pairs
read it.  Witnessed on the scenario session: the source semantics gives A
a strictly smaller final rating than the spec's snapshot-based alternative
(`update_elo_snapshot`), because the pair `(A, C)` reads A's
already-raised rating and therefore A gains less than `K/2` there. -/
theorem claim_C6 :
    getRating (update_elo (PokerELO.init ["A", "B", "C"])
        [("A", 10), ("B", 5), ("C", -15)] none 0).1 "A" <
      (lookupD "A" (update_elo_snapshot (PokerELO.init ["A", "B", "C"])
        [("A", 10), ("B", 5), ("C", -15)])).getD 0 := by
  have hval : getRating (update_elo (PokerELO.init ["A", "B", "C"])
      [("A", 10), ("B", 5), ("C", -15)] none 0).1 "A" =
      15225001515 / 10000001 + 1050000030 / 10000001 *
        (1 - expected_score (15225001515 / 10000001) 1500) := by
    unfold getRating
    rw [scenario_lookup_A]
    rfl
  have hsnap : (lookupD "A" (update_elo_snapshot (PokerELO.init ["A", "B", "C"])
      [("A", 10), ("B", 5), ("C", -15)])).getD 0 = 15750001530 / 10000001 := by
    rw [scenario_snapshot_A]
    rfl
  rw [hval, hsnap]
  have hE : 1/2 < expected_score (15225001515 / 10000001) 1500 :=
    half_lt_expected_score _ _ (by norm_num)
  linarith

/-- Claim C7, counterexample.  After construction with roster `[A, B]` and
zero session updates, the rating mapping's domain is `[A, B]`, which is
not the (empty) set of participants ever passed into a session update; the
domain is fixed by the constructor, not grown by sessions. -/
theorem claim_C7_counterexample :
    keysD ((applySessions (PokerELO.init ["A", "B"]) []).elo_ratings) = ["A", "B"] ∧
      (["A", "B"] : List String) ≠ [] := by
  constructor
  · show keysD ((PokerELO.init ["A", "B"]).elo_ratings) = ["A", "B"]
    exact keysD_init ["A", "B"] (by decide)
  · decide

/-- Claim C7, amended.  The domain of the participant-to-rating mapping
equals exactly the roster passed to the constructor (for a duplicate-free
roster), and no session update ever changes it — it neither grows with new
session participants nor shrinks. -/
theorem claim_C7_amended :
    (∀ (s : PokerELO) (sess : List (String × ℝ)) (d : Option ℕ) (now : ℕ),
        keysD (update_elo s sess d now).1.elo_ratings = keysD s.elo_ratings) ∧
    (∀ roster : List String, roster.Nodup →
        keysD (PokerELO.init roster).elo_ratings = roster) :=
  ⟨keysD_update_elo, keysD_init⟩

/-- Claim C7, witness: the amended theorem applied to the roster
`[A, B]`. -/
theorem claim_C7_witness :
    keysD (PokerELO.init ["A", "B"]).elo_ratings = ["A", "B"] :=
  claim_C7_amended.2 ["A", "B"] (by decide)

/-- Claim C8, confirmed.  In a two-participant session whose participants
have equal prior ratings, the participant with strictly greater profit
strictly gains rating and the other strictly loses, whichever of the two
dict orders the session record uses. -/
theorem claim_C8 (s : PokerELO) (A B : String) (pa pb r : ℝ)
    (d : Option ℕ) (now : ℕ) (sess : List (String × ℝ))
    (hAB : A ≠ B) (hp : pb < pa)
    (hA : lookupD A s.elo_ratings = some r) (hB : lookupD B s.elo_ratings = some r)
    (hsess : sess = [(A, pa), (B, pb)] ∨ sess = [(B, pb), (A, pa)]) :
    r < getRating (update_elo s sess d now).1 A ∧
    getRating (update_elo s sess d now).1 B < r := by
  rcases hsess with rfl | rfl
  · exact two_player_first_wins s A B pa pb r d now hAB hp hA hB
  · obtain ⟨h1, h2⟩ := two_player_second_wins s B A pb pa r d now (Ne.symm hAB) hp hB hA
    exact ⟨h2, h1⟩

/-- Claim C8, witness: the theorem applied to the session `{A: 10, B: 5}`
on two fresh 1500 players. -/
theorem claim_C8_witness :
    1500 < getRating (update_elo (PokerELO.init ["A", "B"])
        [("A", 10), ("B", 5)] none 0).1 "A" ∧
    getRating (update_elo (PokerELO.init ["A", "B"])
        [("A", 10), ("B", 5)] none 0).1 "B" < 1500 :=
  claim_C8 (PokerELO.init ["A", "B"]) "A" "B" 10 5 1500 none 0
    [("A", 10), ("B", 5)] (by decide) (by norm_num)
    (by norm_num +decide [PokerELO.init, setD, lookupD, INITIAL_ELO])
    (by norm_num +decide [PokerELO.init, setD, lookupD, INITIAL_ELO])
    (Or.inl rfl)

/-- Claim C9, confirmed.  For every state, `get_rankings` returns a
permutation of the rating dict (so every participant appears exactly once,
keys included), sorted by rating in descending order; being a pure
function of the state, it performs no mutation. -/
theorem claim_C9 (s : PokerELO) :
    (get_rankings s).Perm s.elo_ratings ∧
    (keysD (get_rankings s)).Perm (keysD s.elo_ratings) ∧
    List.Sorted (fun a b : String × ℝ => b.2 ≤ a.2) (get_rankings s) := by
  have hperm : (get_rankings s).Perm s.elo_ratings := List.mergeSort_perm _ _
  refine ⟨hperm, hperm.map Prod.fst, ?_⟩
  have h := @List.sorted_mergeSort (String × ℝ) (fun a b => decide (b.2 ≤ a.2))
      (fun a b c hab hbc => by
        simp only [decide_eq_true_eq] at hab hbc ⊢
        exact le_trans hbc hab)
      (fun a b => by
        simp only [Bool.or_eq_true, decide_eq_true_eq]
        exact le_total b.2 a.2)
      s.elo_ratings
  unfold get_rankings
  exact h.imp (fun hab => by simpa using hab)

/-- Claim C10, counterexample.  A session record containing an unknown
participant does NOT always raise: a singleton record `{X: 5}` with X
unknown runs no pair, so no `KeyError` is raised (the `last_played` loop
even inserts X silently). -/
theorem claim_C10_counterexample :
    lookupD "X" (PokerELO.init ["A"]).elo_ratings = none ∧
    (update_elo (PokerELO.init ["A"]) [("X", 5)] none 0).2 = false := by
  constructor
  · norm_num +decide [PokerELO.init, setD, lookupD]
  · rfl

/-- Claim C10, amended.  A session record of at least two participants
containing one unknown to the rating dict makes `update_elo` raise
`KeyError`; and the update is not atomic: in the concrete session
`{A: 10, B: 5, X: 0}` with X unknown, the call raises, yet the delta of
the already-processed pair `(A, B)` remains applied (A's rating ends
strictly above 1500). -/
theorem claim_C10_amended :
    (∀ (s : PokerELO) (sess : List (String × ℝ)) (d : Option ℕ) (now : ℕ)
        (p : String) (v : ℝ),
        2 ≤ sess.length → (p, v) ∈ sess → lookupD p s.elo_ratings = none →
        (update_elo s sess d now).2 = true) ∧
    ((update_elo (PokerELO.init ["A", "B"]) [("A", 10), ("B", 5), ("X", 0)] none 0).2 = true ∧
      1500 < getRating (update_elo (PokerELO.init ["A", "B"])
        [("A", 10), ("B", 5), ("X", 0)] none 0).1 "A") := by
  refine ⟨fun s sess d now p v h1 h2 h3 => update_elo_throws s sess d now p v h1 h2 h3,
    throw_scenario_flag, ?_⟩
  unfold getRating
  rw [throw_scenario_lookup_A]
  simp only [Option.getD_some]
  norm_num

/-- Claim C10, witness: the amended theorem's universal part applied to
the session `{A: 1, B: 2}` on the roster `[A]` (B unknown). -/
theorem claim_C10_witness :
    (update_elo (PokerELO.init ["A"]) [("A", 1), ("B", 2)] none 0).2 = true :=
  claim_C10_amended.1 (PokerELO.init ["A"]) [("A", 1), ("B", 2)] none 0 "B" 2
    (by norm_num) (by simp) (by norm_num +decide [PokerELO.init, setD, lookupD])

end PokerTracker
